import Mathlib

/-!
Verification development for the `alice` middleware-chaining package
(a context-passing variant of the classic Go `alice` library, one source
file `chain.go`).

The embedding has two levels.

The pure level models the handler types and the fold operations
(`Then`, `ThenContext`, `ThenFunc`, `ThenFuncContext`,
`CtxHandlerToHandlerFunc`).  A Go handler `ServeHTTP(ctx, w, r)` mutates
its response writer, so a handler is modelled as a state transformer on
the writer: `Ctx → W → R → W`, with the writer type `W` and the request
type `R` kept abstract.  The `panic("nil is not allowed")` in the source
is modelled with `Except String`: a panic is `Except.error` carrying the
panic message.

The heap level models Go slices with their backing arrays, so that the
allocation and copying performed by `New` and `Append`
(`make`, `copy`, built-in `append`) can be reasoned about: a heap is a
list of allocated backing arrays, a slice is a view (array id, offset,
length, capacity) into one of them.  This level settles the
immutability and argument-copying claims, which would be vacuous for
Lean's intrinsically immutable lists.
-/

namespace Alice

/-- Model of Go `context.Context`.  The source only ever creates
`context.TODO()` (the root context, modelled by `Ctx.todo`), but the
type is kept larger than a singleton (`withValue` models deriving a
child context carrying a key/value pair) so that theorems saying
"every constructor received exactly the root context" have content. -/
inductive Ctx where
  | todo : Ctx
  | withValue : Ctx → Nat → Nat → Ctx

variable {W R : Type}

/-- Model of the `CtxHandler` interface: `ServeHTTP(ctx, w, r)` updates
the response writer, so a handler is a writer transformer. -/
abbrev CtxHandler (W R : Type) : Type := Ctx → W → R → W

/-- Model of `type CtxHandlerFunc func(context.Context, http.ResponseWriter, *http.Request)`. -/
abbrev CtxHandlerFunc (W R : Type) : Type := Ctx → W → R → W

/-- Source (`chain.go`): `func (f CtxHandlerFunc) ServeHTTP(ctx, w, r) { f(ctx, w, r) }`.
This is the adapter making a bare function usable as a `CtxHandler`. -/
def CtxHandlerFunc.ServeHTTP (f : CtxHandlerFunc W R) : CtxHandler W R := f

/-- Model of `type Constructor func(context.Context, CtxHandler) CtxHandler`. -/
abbrev Constructor (W R : Type) : Type := Ctx → CtxHandler W R → CtxHandler W R

/-- Model of `http.Handler` / `http.HandlerFunc`: `ServeHTTP(w, r)`
updates the response writer (no context argument). -/
abbrev HttpHandler (W R : Type) : Type := W → R → W

/-- Source: `type Chain struct { constructors []Constructor }`.  At the
pure level the slice is just its element sequence; the slice/backing
array view is modelled separately at the heap level. -/
structure Chain (W R : Type) where
  constructors : List (Constructor W R)

/-- Source: `func CtxHandlerToHandlerFunc(ctx context.Context, fn CtxHandler) http.HandlerFunc`
returns `func(w, r) { fn.ServeHTTP(ctx, w, r) }`. -/
def CtxHandlerToHandlerFunc (ctx : Ctx) (fn : CtxHandler W R) : HttpHandler W R :=
  fun w r => fn ctx w r

/-- The loop shared by `Then` and `ThenContext`:
`for i := len(c.constructors) - 1; i >= 0; i-- { final = c.constructors[i](ctx, final) }`.
The downward index loop visits the constructors from the last one to the
first one, each wrapping the handler accumulated so far; iterating the
reversed list from its head is exactly that visit order. -/
def thenLoop (ctx : Ctx) (cs : List (Constructor W R)) (final : CtxHandler W R) :
    CtxHandler W R :=
  cs.reverse.foldl (fun acc con => con ctx acc) final

/-- Source: `func (c Chain) Then(h CtxHandler) (wrappedFinal http.Handler)`.
It sets `ctx := context.TODO()`, panics when `h` is nil, runs the
downward wrapping loop, and returns
`http.HandlerFunc(CtxHandlerToHandlerFunc(ctx, final))`. -/
def Chain.Then (c : Chain W R) (h : Option (CtxHandler W R)) :
    Except String (HttpHandler W R) :=
  match h with
  | some hh =>
      Except.ok (CtxHandlerToHandlerFunc Ctx.todo (thenLoop Ctx.todo c.constructors hh))
  | none => Except.error ("nil is not allowed")

/-- Source: `func (c Chain) ThenContext(h CtxHandler) (final CtxHandler)`.
Same as `Then` but without the final `http.Handler` adaptation. -/
def Chain.ThenContext (c : Chain W R) (h : Option (CtxHandler W R)) :
    Except String (CtxHandler W R) :=
  match h with
  | some hh => Except.ok (thenLoop Ctx.todo c.constructors hh)
  | none => Except.error ("nil is not allowed")

/-- Source: `func (c Chain) ThenFunc(fn CtxHandlerFunc) http.Handler`:
`if fn == nil { return c.Then(nil) }; return c.Then(CtxHandlerFunc(fn))`. -/
def Chain.ThenFunc (c : Chain W R) (fn : Option (CtxHandlerFunc W R)) :
    Except String (HttpHandler W R) :=
  match fn with
  | none => c.Then none
  | some f => c.Then (some f.ServeHTTP)

/-- Source: `func (c Chain) ThenFuncContext(fn CtxHandlerFunc) (final CtxHandler)`.
In the nil branch the source has `return c.Then(nil)`.  `Then(nil)`
panics unconditionally, so only the panic is observable on that
branch; the value it would return is never produced (moreover in the
source that value has static type `http.Handler`, which does not
implement the declared `CtxHandler` return type, so the branch is
also ill-typed Go; see the development notes on that claim).  The
model propagates the panic; the function mapped over the
never-occurring success is arbitrary and unreachable. -/
def Chain.ThenFuncContext (c : Chain W R) (fn : Option (CtxHandlerFunc W R)) :
    Except String (CtxHandler W R) :=
  match fn with
  | none => (c.Then none).map (fun _ => fun _ w _ => w)
  | some f => c.ThenContext (some f.ServeHTTP)

/-- Specification-side definition (from the spec's words, for comparison
with the loop of the source): the manually nested wrapping
`c1(ctx, c2(ctx, ... cn(ctx, h)))`, first constructor outermost. -/
def nestWrap (ctx : Ctx) : List (Constructor W R) → CtxHandler W R → CtxHandler W R
  | [], h => h
  | con :: rest, h => con ctx (nestWrap ctx rest h)

/-- Invoke the `http.Handler` produced by a fold on a concrete writer and
request; `none` when the fold panicked. -/
def runHttp (e : Except String (HttpHandler W R)) (w : W) (r : R) : Option W :=
  match e with
  | Except.ok f => some (f w r)
  | Except.error _ => none

/-- Invoke the `CtxHandler` produced by a fold on a concrete context,
writer and request; `none` when the fold panicked. -/
def runCtx (e : Except String (CtxHandler W R)) (ctx : Ctx) (w : W) (r : R) : Option W :=
  match e with
  | Except.ok f => some (f ctx w r)
  | Except.error _ => none

/-- A middleware constructor that appends `name` to the writer's log and
then calls the next handler (the mock middleware of the spec's test
scenarios). -/
def logCon (name : String) : Constructor (List String) R :=
  fun _buildCtx next => fun ctx w r => next ctx (w ++ [name]) r

/-- A terminal handler that appends `name` to the writer's log and stops. -/
def logTerm (name : String) : CtxHandler (List String) R :=
  fun _ctx w _r => w ++ [name]

/-- A middleware constructor that records, at request time, the context
value it was handed at fold (construction) time, then calls the next
handler. -/
def recordCtx : Constructor (List Ctx) R :=
  fun buildCtx next => fun ctx w r => next ctx (w ++ [buildCtx]) r

/-- A terminal handler that records the context value it is invoked with. -/
def recordCtxTerm : CtxHandler (List Ctx) R :=
  fun ctx w _r => w ++ [ctx]

/-- The downward loop of `Then`/`ThenContext` computes exactly the
manually nested wrapping. -/
theorem thenLoop_eq_nestWrap (ctx : Ctx) (cs : List (Constructor W R))
    (h : CtxHandler W R) : thenLoop ctx cs h = nestWrap ctx cs h := by
  induction cs with
  | nil => rfl
  | cons con rest ih =>
      unfold thenLoop nestWrap
      rw [List.reverse_cons, List.foldl_append]
      unfold thenLoop at ih
      rw [ih]
      rfl

/-- Behavior of a pipeline of logging middleware: each layer contributes
its own name, in nesting order, before the terminal handler runs. -/
theorem nestWrap_logCon (names : List String) (h : CtxHandler (List String) R)
    (bctx ctx : Ctx) (w : List String) (r : R) :
    nestWrap bctx (names.map logCon) h ctx w r = h ctx (w ++ names) r := by
  induction names generalizing w with
  | nil => simp [nestWrap]
  | cons n rest ih =>
      simp [nestWrap, logCon, ih]

/-- Behavior of a pipeline of context-recording middleware: each layer
logs the context it received at fold time. -/
theorem nestWrap_recordCtx (n : Nat) (h : CtxHandler (List Ctx) R)
    (bctx ctx : Ctx) (w : List Ctx) (r : R) :
    nestWrap bctx (List.replicate n (recordCtx (R := R))) h ctx w r
      = h ctx (w ++ List.replicate n bctx) r := by
  induction n generalizing w with
  | zero => simp [nestWrap]
  | succ k ih =>
      simp [List.replicate_succ, nestWrap, recordCtx, ih]

/-- The claim C1: for every constructor sequence `[c1..cn]` and non-nil
terminal `h`, the handler composed by `ThenContext` is exactly the
manually nested wrapping `c1(ctx, c2(ctx, ... cn(ctx, h)))` —
constructors applied in reverse index order, `constructor[0]`
outermost, terminal innermost — and `Then` returns the same nested
wrapping behind the request/response adapter, so invoking either
result produces the same observable invocation order as the manually
nested calls. -/
theorem then_composes_nested (cs : List (Constructor W R)) (h : CtxHandler W R) :
    (Chain.mk cs).ThenContext (some h) = Except.ok (nestWrap Ctx.todo cs h)
    ∧ (Chain.mk cs).Then (some h)
        = Except.ok (CtxHandlerToHandlerFunc Ctx.todo (nestWrap Ctx.todo cs h)) := by
  constructor
  · simp [Chain.ThenContext, thenLoop_eq_nestWrap]
  · simp [Chain.Then, thenLoop_eq_nestWrap]

/-- The claim C2: for every constructor sequence, empty or not, `Then`
and `ThenContext` on a nil terminal handler deterministically abort
with the panic `"nil is not allowed"`; they never return a composed
handler (the result is the error, uniformly in the constructors, so no
constructor influences the outcome). -/
theorem then_nil_panics (cs : List (Constructor W R)) :
    (Chain.mk cs).Then none = Except.error ("nil is not allowed")
    ∧ (Chain.mk cs).ThenContext none = Except.error ("nil is not allowed") :=
  ⟨rfl, rfl⟩

/-- The claim C5: folding the empty chain is the identity transform —
`ThenContext` returns the terminal handler itself, and `Then` returns
it wrapped only by the request/response adapter (which fixes the fold
context), so invoking the result behaves exactly like invoking the
terminal directly. -/
theorem empty_chain_identity (h : CtxHandler W R) :
    (Chain.mk ([] : List (Constructor W R))).ThenContext (some h) = Except.ok h
    ∧ (Chain.mk ([] : List (Constructor W R))).Then (some h)
        = Except.ok (fun w r => h Ctx.todo w r) :=
  ⟨rfl, rfl⟩

/-- The claim C6: folding the same chain with two different terminals
yields two independent composed handlers.  With one logging middleware
layer per name and logging terminals, the pipeline built on terminal
`h1` produces exactly `names ++ [h1]` (each constructor contributes
exactly one entry per fold, and the only terminal ever reached is its
own), and symmetrically for `h2`; neither output mentions the other
terminal. -/
theorem then_reuse_independent (names : List String) (r : R) :
    runHttp ((Chain.mk (names.map logCon)).Then (some (logTerm ("h1")))) [] r
      = some (names ++ ["h1"])
    ∧ runHttp ((Chain.mk (names.map logCon)).Then (some (logTerm ("h2")))) [] r
      = some (names ++ ["h2"]) := by
  constructor
  · simp [Chain.Then, runHttp, CtxHandlerToHandlerFunc, thenLoop_eq_nestWrap,
      nestWrap_logCon, logTerm]
  · simp [Chain.Then, runHttp, CtxHandlerToHandlerFunc, thenLoop_eq_nestWrap,
      nestWrap_logCon, logTerm]

/-- The claim C8: the two fold output shapes are equivalent — `Then` is
exactly `ThenContext` followed by the `CtxHandlerToHandlerFunc`
adapter at the fold context (also on the panic path), and invoking the
adapted handler with a writer and request invokes the composed
`CtxHandler` with the captured context, writer and request. -/
theorem then_refines_thenContext (c : Chain W R) (h : Option (CtxHandler W R)) :
    c.Then h = (c.ThenContext h).map (CtxHandlerToHandlerFunc Ctx.todo)
    ∧ ∀ (ctx : Ctx) (fn : CtxHandler W R) (w : W) (r : R),
        CtxHandlerToHandlerFunc ctx fn w r = fn ctx w r := by
  constructor
  · cases h with
    | none => rfl
    | some hh => rfl
  · intro ctx fn w r
    rfl

/-- The claim C9: one root context value (`context.TODO()`, modelled by
`Ctx.todo`) is used for a whole fold call: with `n` context-recording
middleware layers and a context-recording terminal, the handler
returned by `Then` logs `n + 1` copies of the root context on every
request — every constructor invocation during the fold received the
identical root context, the adapter captured that same root context,
and none of it depends on the incoming request `r`.  With
`ThenContext` the caller supplies the request-time context `ctx`, and
the `n` fold-time records are still all the root context. -/
theorem fold_context_is_todo_root (n : Nat) (ctx : Ctx) (r : R) :
    runHttp ((Chain.mk (List.replicate n (recordCtx (R := R)))).Then
        (some recordCtxTerm)) [] r
      = some (List.replicate (n + 1) Ctx.todo)
    ∧ runCtx ((Chain.mk (List.replicate n (recordCtx (R := R)))).ThenContext
        (some recordCtxTerm)) ctx [] r
      = some (List.replicate n Ctx.todo ++ [ctx]) := by
  constructor
  · simp [Chain.Then, runHttp, CtxHandlerToHandlerFunc, thenLoop_eq_nestWrap,
      nestWrap_recordCtx, recordCtxTerm, List.replicate_succ']
  · simp [Chain.ThenContext, runCtx, thenLoop_eq_nestWrap,
      nestWrap_recordCtx, recordCtxTerm]

/-- The claim C7, under the intended semantics of the nil branch of
`ThenFuncContext` (the source text of that branch is ill-typed Go, see
the definition's comment): a nil function is treated exactly like a
nil handler — `ThenFunc none` and `ThenFuncContext none` abort with
the same `"nil is not allowed"` panic as `Then none` — and for a
non-nil function `fn`, `ThenFunc` is `Then` on `CtxHandlerFunc(fn)`
and `ThenFuncContext` is `ThenContext` on `CtxHandlerFunc(fn)`. -/
theorem thenFunc_matches_then (c : Chain W R) :
    c.ThenFunc none = Except.error ("nil is not allowed")
    ∧ c.ThenFuncContext none = Except.error ("nil is not allowed")
    ∧ ∀ fn : CtxHandlerFunc W R,
        c.ThenFunc (some fn) = c.Then (some fn.ServeHTTP)
        ∧ c.ThenFuncContext (some fn) = c.ThenContext (some fn.ServeHTTP) := by
  refine ⟨rfl, rfl, ?_⟩
  intro fn
  exact ⟨rfl, rfl⟩

/-!
Heap-level model of Go slices.

`New` and `Append` manipulate the `[]Constructor` slice with `make`,
`copy` and the built-in `append`; the immutability claims about them
are claims about Go's backing-array aliasing, so slices are modelled
explicitly: a heap is the list of backing arrays allocated so far, and
a slice is a view into one of them.  The built-in `append` writes in
place when the spare capacity suffices and otherwise allocates a fresh
backing array (the growth policy, which Go leaves open, is modelled as
exact-fit allocation); `copy` transfers `min` of the two lengths, with
read-before-write (memmove) semantics. -/

/-- A heap: the backing arrays allocated so far, indexed by position. -/
abbrev Heap (α : Type) : Type := List (List α)

/-- A Go slice value: a view into backing array `arrId` starting at
`off`, with `len` visible elements and `cap` total capacity. -/
structure GoSlice where
  arrId : Nat
  off : Nat
  len : Nat
  cap : Nat

/-- The nil slice (`var s []T`): no backing array, length and capacity
zero. -/
def nilSlice : GoSlice := ⟨0, 0, 0, 0⟩

/-- Look up a backing array (a missing id reads as the empty array). -/
def heapGet (h : Heap α) (i : Nat) : List α :=
  match h, i with
  | [], _ => []
  | a :: _, 0 => a
  | _ :: t, n + 1 => heapGet t n

/-- Replace a backing array (out-of-range ids leave the heap unchanged). -/
def heapSet (h : Heap α) (i : Nat) (a : List α) : Heap α :=
  match h, i with
  | [], _ => []
  | _ :: t, 0 => a :: t
  | b :: t, n + 1 => b :: heapSet t n a

/-- Overwrite the elements of an array from position `pos` on with `xs`. -/
def storeAt (arr : List α) (pos : Nat) (xs : List α) : List α :=
  arr.take pos ++ xs ++ arr.drop (pos + xs.length)

/-- The element sequence a slice denotes. -/
def readSlice (h : Heap α) (s : GoSlice) : List α :=
  ((heapGet h s.arrId).drop s.off).take s.len

/-- Write `xs` into backing array `id` starting at position `pos`. -/
def writeArr (h : Heap α) (id pos : Nat) (xs : List α) : Heap α :=
  heapSet h id (storeAt (heapGet h id) pos xs)

/-- Well-formedness of a slice over a heap: the length fits the
capacity, and a slice with capacity points into an allocated array with
room for its whole capacity window. -/
def WFSlice (h : Heap α) (s : GoSlice) : Prop :=
  s.len ≤ s.cap
    ∧ (s.cap = 0 ∨ (s.arrId < h.length ∧ s.off + s.cap ≤ (heapGet h s.arrId).length))

instance (h : Heap α) (s : GoSlice) : Decidable (WFSlice h s) := by
  unfold WFSlice
  exact inferInstance

/-- Go `make([]T, n)`: a fresh backing array of `n` zero values. -/
def goMake (h : Heap α) (d : α) (n : Nat) : Heap α × GoSlice :=
  (h ++ [List.replicate n d], ⟨h.length, 0, n, n⟩)

/-- Go `copy(dst, src)`: transfer `min` of the two lengths. -/
def goCopy (h : Heap α) (dst src : GoSlice) : Heap α :=
  writeArr h dst.arrId dst.off ((readSlice h src).take (min dst.len src.len))

/-- Go `append(s, xs...)`: write in place into the spare capacity when
it suffices, otherwise allocate a fresh backing array holding the
combined elements. -/
def goAppend (h : Heap α) (s : GoSlice) (xs : List α) : Heap α × GoSlice :=
  if s.len + xs.length ≤ s.cap then
    (writeArr h s.arrId (s.off + s.len) xs, ⟨s.arrId, s.off, s.len + xs.length, s.cap⟩)
  else
    (h ++ [readSlice h s ++ xs], ⟨h.length, 0, s.len + xs.length, s.len + xs.length⟩)

/-- Source: `func New(constructors ...Constructor) Chain` —
`c := Chain{}` (nil slice) then
`c.constructors = append(c.constructors, constructors...)`.  The heap
level represents a `Chain` by the slice held in its `constructors`
field; `args` is the variadic argument slice. -/
def New (h : Heap α) (args : GoSlice) : Heap α × GoSlice :=
  goAppend h nilSlice (readSlice h args)

/-- Source: `func (c Chain) Append(constructors ...Constructor) Chain` —
`newCons := make([]Constructor, len(c.constructors))`,
`copy(newCons, c.constructors)`,
`newCons = append(newCons, constructors...)`, `return New(newCons...)`.
`c` is the receiver's `constructors` slice, `more` the variadic
argument slice, `d` the zero value of the element type (it is
overwritten by the `copy` before it can ever be observed). -/
def Append (h : Heap α) (d : α) (c more : GoSlice) : Heap α × GoSlice :=
  let hm := goMake h d c.len
  let h2 := goCopy hm.1 hm.2 c
  let ha := goAppend h2 hm.2 (readSlice h2 more)
  New ha.1 ha.2

/-- The `Chain` value a heap-level constructor slice denotes. -/
def chainAt (h : Heap (Constructor W R)) (s : GoSlice) : Chain W R :=
  Chain.mk (readSlice h s)

theorem heapGet_append_lt (h1 h2 : Heap α) :
    ∀ i, i < h1.length → heapGet (h1 ++ h2) i = heapGet h1 i := by
  induction h1 with
  | nil => intro i hi; simp at hi
  | cons a t ih =>
      intro i hi
      cases i with
      | zero => rfl
      | succ n => exact ih n (by simpa using hi)

theorem heapGet_append_len (h1 : Heap α) (a : List α) (h2 : Heap α) :
    heapGet (h1 ++ a :: h2) h1.length = a := by
  induction h1 with
  | nil => rfl
  | cons b t ih => simpa [heapGet] using ih

theorem length_heapSet (h : Heap α) (i : Nat) (a : List α) :
    (heapSet h i a).length = h.length := by
  induction h generalizing i with
  | nil => rfl
  | cons b t ih =>
      cases i with
      | zero => rfl
      | succ n => simpa [heapSet] using ih n

theorem heapGet_heapSet_self (h : Heap α) (i : Nat) (a : List α) (hi : i < h.length) :
    heapGet (heapSet h i a) i = a := by
  induction h generalizing i with
  | nil => simp at hi
  | cons b t ih =>
      cases i with
      | zero => rfl
      | succ n => exact ih n (by simpa using hi)

theorem heapGet_heapSet_ne (h : Heap α) (i j : Nat) (a : List α) (hij : i ≠ j) :
    heapGet (heapSet h i a) j = heapGet h j := by
  induction h generalizing i j with
  | nil => rfl
  | cons b t ih =>
      cases i with
      | zero =>
          cases j with
          | zero => exact absurd rfl hij
          | succ m => rfl
      | succ n =>
          cases j with
          | zero => rfl
          | succ m => exact ih n m (fun hnm => hij (by rw [hnm]))

theorem heapSet_oob (h : Heap α) (i : Nat) (a : List α) (hi : h.length ≤ i) :
    heapSet h i a = h := by
  induction h generalizing i with
  | nil => rfl
  | cons b t ih =>
      cases i with
      | zero => simp at hi
      | succ n => simp [heapSet, ih n (by simpa using hi)]

theorem heapSet_heapGet (h : Heap α) (i : Nat) :
    heapSet h i (heapGet h i) = h := by
  induction h generalizing i with
  | nil => rfl
  | cons b t ih =>
      cases i with
      | zero => rfl
      | succ n => simp [heapSet, heapGet, ih n]

theorem heapSet_append_len (h : Heap α) (a b : List α) :
    heapSet (h ++ [a]) h.length b = h ++ [b] := by
  induction h with
  | nil => rfl
  | cons c t ih => simpa [heapSet] using ih

theorem storeAt_nil_elems (arr : List α) (pos : Nat) :
    storeAt arr pos [] = arr := by
  simp [storeAt]

theorem storeAt_exact (n : Nat) (d : α) (xs : List α) (hx : xs.length = n) :
    storeAt (List.replicate n d) 0 xs = xs := by
  simp [storeAt, hx, List.drop_replicate]

theorem length_storeAt_ge (arr : List α) (pos : Nat) (xs : List α) :
    arr.length ≤ (storeAt arr pos xs).length := by
  simp [storeAt]
  omega

theorem writeArr_nil_elems (h : Heap α) (id pos : Nat) :
    writeArr h id pos [] = h := by
  simp [writeArr, storeAt_nil_elems, heapSet_heapGet]

theorem readSlice_len_zero (h : Heap α) (s : GoSlice) (h0 : s.len = 0) :
    readSlice h s = [] := by
  simp [readSlice, h0]

theorem readSlice_heap_append (h h2 : Heap α) (s : GoSlice) (hwf : WFSlice h s) :
    readSlice (h ++ h2) s = readSlice h s := by
  rcases hwf with ⟨hlc, hc0 | ⟨hid, _⟩⟩
  · exact (readSlice_len_zero _ _ (by omega)).trans
      (readSlice_len_zero _ _ (by omega)).symm
  · unfold readSlice
    rw [heapGet_append_lt _ _ _ hid]

theorem readSlice_writeArr_ne (h : Heap α) (s : GoSlice) (id pos : Nat) (xs : List α)
    (hne : id ≠ s.arrId) :
    readSlice (writeArr h id pos xs) s = readSlice h s := by
  unfold readSlice writeArr
  rw [heapGet_heapSet_ne _ _ _ _ hne]

theorem length_readSlice (h : Heap α) (s : GoSlice) (hwf : WFSlice h s) :
    (readSlice h s).length = s.len := by
  rcases hwf with ⟨hlc, hc0 | ⟨_, hbound⟩⟩
  · simp [readSlice]
    omega
  · simp [readSlice]
    omega

theorem readSlice_fresh (h : Heap α) (a : List α) :
    readSlice (h ++ [a]) ⟨h.length, 0, a.length, a.length⟩ = a := by
  unfold readSlice
  rw [show (GoSlice.mk h.length 0 a.length a.length).arrId = h.length from rfl,
    heapGet_append_len h a []]
  simp

theorem wf_heap_append (h h2 : Heap α) (s : GoSlice) (hwf : WFSlice h s) :
    WFSlice (h ++ h2) s := by
  rcases hwf with ⟨hlc, hc0 | ⟨hid, hbound⟩⟩
  · exact ⟨hlc, Or.inl hc0⟩
  · refine ⟨hlc, Or.inr ⟨?_, ?_⟩⟩
    · simpa using Nat.lt_of_lt_of_le hid (by simp)
    · rw [heapGet_append_lt _ _ _ hid]
      exact hbound

theorem wf_writeArr (h : Heap α) (s : GoSlice) (id pos : Nat) (xs : List α)
    (hwf : WFSlice h s) : WFSlice (writeArr h id pos xs) s := by
  rcases hwf with ⟨hlc, hc0 | ⟨hid, hbound⟩⟩
  · exact ⟨hlc, Or.inl hc0⟩
  · refine ⟨hlc, Or.inr ⟨?_, ?_⟩⟩
    · simpa [writeArr, length_heapSet] using hid
    · by_cases hcase : id = s.arrId
      · subst hcase
        by_cases hin : s.arrId < h.length
        · rw [writeArr, heapGet_heapSet_self _ _ _ hin]
          exact Nat.le_trans hbound (length_storeAt_ge _ _ _)
        · rw [writeArr, heapSet_oob _ _ _ (Nat.le_of_not_lt hin)]
          exact hbound
      · rw [writeArr, heapGet_heapSet_ne _ _ _ _ hcase]
        exact hbound

theorem wf_nilSlice (h : Heap α) : WFSlice h nilSlice :=
  ⟨Nat.le_refl 0, Or.inl rfl⟩

theorem wf_fresh (h : Heap α) (a : List α) :
    WFSlice (h ++ [a]) ⟨h.length, 0, a.length, a.length⟩ := by
  refine ⟨Nat.le_refl _, Or.inr ⟨by simp, ?_⟩⟩
  rw [show (GoSlice.mk h.length 0 a.length a.length).arrId = h.length from rfl,
    heapGet_append_len h a []]
  simp

theorem goAppend_nilSlice_nil (h : Heap α) :
    goAppend h nilSlice ([] : List α) = (h, nilSlice) := by
  simp [goAppend, nilSlice, writeArr_nil_elems]

theorem goAppend_nilSlice_cons (h : Heap α) (xs : List α) (hx : xs ≠ []) :
    goAppend h nilSlice xs = (h ++ [xs], ⟨h.length, 0, xs.length, xs.length⟩) := by
  unfold goAppend nilSlice
  rw [if_neg (by simpa using hx)]
  simp [readSlice]

theorem goAppend_nil_arg (h : Heap α) (s : GoSlice) (hlc : s.len ≤ s.cap) :
    goAppend h s ([] : List α) = (h, ⟨s.arrId, s.off, s.len, s.cap⟩) := by
  unfold goAppend
  rw [if_pos (by simpa using hlc)]
  simp [writeArr_nil_elems]

theorem goAppend_overflow (h : Heap α) (s : GoSlice) (xs : List α)
    (hover : s.cap < s.len + xs.length) :
    goAppend h s xs
      = (h ++ [readSlice h s ++ xs],
          ⟨h.length, 0, s.len + xs.length, s.len + xs.length⟩) := by
  unfold goAppend
  rw [if_neg (by omega)]

/-- Structure of `New`: it only ever extends the heap with fresh
backing arrays, its resulting chain slice denotes exactly the elements
of the argument slice, is well formed, and lives (when non-empty) in a
backing array that did not exist before the call. -/
theorem New_shape (h : Heap α) (args : GoSlice) :
    ∃ ext, (New h args).1 = h ++ ext
      ∧ readSlice (New h args).1 (New h args).2 = readSlice h args
      ∧ WFSlice (New h args).1 (New h args).2
      ∧ ((New h args).2.len = 0 ∨ h.length ≤ (New h args).2.arrId) := by
  unfold New
  cases hxs : readSlice h args with
  | nil =>
      rw [goAppend_nilSlice_nil]
      refine ⟨[], by simp, ?_, wf_nilSlice h, Or.inl rfl⟩
      dsimp only
      exact readSlice_len_zero h nilSlice rfl
  | cons a t =>
      rw [goAppend_nilSlice_cons h (a :: t) (by simp)]
      refine ⟨[a :: t], rfl, ?_, ?_, Or.inr (Nat.le_refl _)⟩
      · dsimp only
        exact readSlice_fresh h (a :: t)
      · dsimp only
        exact wf_fresh h (a :: t)

/-- The `make`-then-`copy` stage of `Append` produces one fresh backing
array holding exactly the receiver's elements. -/
theorem copy_stage (h : Heap α) (d : α) (c : GoSlice) (hc : WFSlice h c) :
    goCopy (h ++ [List.replicate c.len d]) ⟨h.length, 0, c.len, c.len⟩ c
      = h ++ [readSlice h c] := by
  have hlen : (readSlice h c).length = c.len := length_readSlice h c hc
  show writeArr (h ++ [List.replicate c.len d]) h.length 0
      ((readSlice (h ++ [List.replicate c.len d]) c).take (min c.len c.len)) = _
  rw [Nat.min_self, readSlice_heap_append h _ c hc,
    List.take_of_length_le (Nat.le_of_eq hlen), writeArr,
    heapGet_append_len h _ [], storeAt_exact _ d _ hlen, heapSet_append_len]

/-- Structure of `Append`: it only ever extends the heap with fresh
backing arrays (never writing a pre-existing one), its resulting chain
slice denotes the receiver's elements followed by the argument's
elements, is well formed, and lives (when non-empty) in a backing array
that did not exist before the call. -/
theorem Append_shape (h : Heap α) (d : α) (c more : GoSlice)
    (hc : WFSlice h c) (hm : WFSlice h more) :
    ∃ ext, (Append h d c more).1 = h ++ ext
      ∧ readSlice (Append h d c more).1 (Append h d c more).2
          = readSlice h c ++ readSlice h more
      ∧ WFSlice (Append h d c more).1 (Append h d c more).2
      ∧ ((Append h d c more).2.len = 0 ∨ h.length ≤ (Append h d c more).2.arrId) := by
  have hlc : (readSlice h c).length = c.len := length_readSlice h c hc
  have hsl : (⟨h.length, 0, c.len, c.len⟩ : GoSlice)
      = ⟨h.length, 0, (readSlice h c).length, (readSlice h c).length⟩ := by rw [hlc]
  have hread0 : readSlice (h ++ [readSlice h c]) ⟨h.length, 0, c.len, c.len⟩
      = readSlice h c := by
    rw [hsl]; exact readSlice_fresh h (readSlice h c)
  simp only [Append, goMake]
  rw [copy_stage h d c hc, readSlice_heap_append h _ more hm]
  cases hxm : readSlice h more with
  | nil =>
      rw [goAppend_nil_arg _ (⟨h.length, 0, c.len, c.len⟩ : GoSlice) (Nat.le_refl c.len)]
      dsimp only
      obtain ⟨ext2, he2, hr2, hw2, hf2⟩ :=
        New_shape (h ++ [readSlice h c]) ⟨h.length, 0, c.len, c.len⟩
      refine ⟨[readSlice h c] ++ ext2, ?_, ?_, hw2, ?_⟩
      · rw [he2, List.append_assoc]
      · rw [hr2, hread0]
        simp
      · rcases hf2 with h0 | hge
        · exact Or.inl h0
        · exact Or.inr (Nat.le_trans (by simp) hge)
  | cons a t =>
      rw [goAppend_overflow _ _ _
        (by show c.len < c.len + (a :: t).length; rw [List.length_cons]; omega)]
      dsimp only
      rw [hread0]
      have hsl2 : (⟨(h ++ [readSlice h c]).length, 0, c.len + (a :: t).length,
            c.len + (a :: t).length⟩ : GoSlice)
          = ⟨(h ++ [readSlice h c]).length, 0, (readSlice h c ++ a :: t).length,
              (readSlice h c ++ a :: t).length⟩ := by
        simp [hlc]
      have hread1 : readSlice ((h ++ [readSlice h c]) ++ [readSlice h c ++ a :: t])
          (⟨(h ++ [readSlice h c]).length, 0, c.len + (a :: t).length,
            c.len + (a :: t).length⟩ : GoSlice)
          = readSlice h c ++ a :: t := by
        rw [hsl2]; exact readSlice_fresh _ _
      obtain ⟨ext2, he2, hr2, hw2, hf2⟩ :=
        New_shape ((h ++ [readSlice h c]) ++ [readSlice h c ++ a :: t])
          ⟨(h ++ [readSlice h c]).length, 0, c.len + (a :: t).length,
            c.len + (a :: t).length⟩
      refine ⟨[readSlice h c] ++ [readSlice h c ++ a :: t] ++ ext2, ?_, ?_, hw2, ?_⟩
      · rw [he2]
        simp
      · rw [hr2, hread1]
      · rcases hf2 with h0 | hge
        · exact Or.inl h0
        · exact Or.inr (Nat.le_trans (by simp) hge)

/-- A constructor standing for Go's zero `Constructor` value (the nil
function): it is handed to `make` as the initial array content and is
always overwritten by `copy` before it can be observed, so its body is
arbitrary. -/
def zeroCon : Constructor (List String) Unit := fun _buildCtx next => next

/-- Concrete scenario heap: two backing arrays holding the logging
middleware `A` and `B`. -/
def scenHeap : Heap (Constructor (List String) Unit) := [[logCon ("A")], [logCon ("B")]]

/-- Slice of the variadic argument `A` in the scenario. -/
def scenA : GoSlice := ⟨0, 0, 1, 1⟩

/-- Slice of the variadic argument `B` in the scenario. -/
def scenB : GoSlice := ⟨1, 0, 1, 1⟩

/-- `base := New(A)` of the claim's concrete scenario. -/
def scenBase : Heap (Constructor (List String) Unit) × GoSlice := New scenHeap scenA

/-- `ext := base.Append(B)` of the claim's concrete scenario. -/
def scenExt : Heap (Constructor (List String) Unit) × GoSlice :=
  Append scenBase.1 zeroCon scenBase.2 scenB

/-- The claim C3: `Append` does not mutate the receiver chain.  After
`base.Append(m1)`, folding `base` with any terminal gives the same
composed handler as before the call; and after a second extension
`base.Append(m2)` spawned from the same base, both the base chain and
the first extended chain still denote exactly what they denoted
before — extended chains from one base are mutually independent. -/
theorem append_does_not_mutate_receiver (h : Heap (Constructor W R))
    (d : Constructor W R) (base m1 m2 : GoSlice) (t : Option (CtxHandler W R))
    (hb : WFSlice h base) (hm1 : WFSlice h m1) (hm2 : WFSlice h m2) :
    (chainAt (Append h d base m1).1 base).ThenContext t
        = (chainAt h base).ThenContext t
    ∧ chainAt (Append (Append h d base m1).1 d base m2).1 base = chainAt h base
    ∧ chainAt (Append (Append h d base m1).1 d base m2).1 (Append h d base m1).2
        = chainAt (Append h d base m1).1 (Append h d base m1).2 := by
  obtain ⟨e1, he1, _, hw1, _⟩ := Append_shape h d base m1 hb hm1
  have hbase1 : readSlice (Append h d base m1).1 base = readSlice h base := by
    rw [he1]
    exact readSlice_heap_append h e1 base hb
  have hwb1 : WFSlice (Append h d base m1).1 base := by
    rw [he1]
    exact wf_heap_append h e1 base hb
  have hwm2 : WFSlice (Append h d base m1).1 m2 := by
    rw [he1]
    exact wf_heap_append h e1 m2 hm2
  obtain ⟨e2, he2, _, _, _⟩ := Append_shape (Append h d base m1).1 d base m2 hwb1 hwm2
  refine ⟨?_, ?_, ?_⟩
  · unfold chainAt
    rw [hbase1]
  · unfold chainAt
    rw [he2, readSlice_heap_append _ e2 base hwb1, hbase1]
  · unfold chainAt
    rw [he2, readSlice_heap_append _ e2 _ hw1]

/-- The claim C4: `Append` produces a chain whose constructor sequence
is the receiver's followed by the arguments, in order; and in the
concrete scenario `base := New(A)`, `ext := base.Append(B)`, the
handler `base.Then(term)` invokes only `A` before `term` while
`ext.Then(term)` invokes `A` then `B` before `term`. -/
theorem append_extends_in_order (h : Heap (Constructor W R)) (d : Constructor W R)
    (base more : GoSlice) (hb : WFSlice h base) (hm : WFSlice h more) :
    (chainAt (Append h d base more).1 (Append h d base more).2).constructors
        = readSlice h base ++ readSlice h more
    ∧ runHttp ((chainAt scenExt.1 scenBase.2).Then (some (logTerm ("term")))) [] ()
        = some (["A", "term"])
    ∧ runHttp ((chainAt scenExt.1 scenExt.2).Then (some (logTerm ("term")))) [] ()
        = some (["A", "B", "term"]) := by
  obtain ⟨e1, he1, hr1, _, _⟩ := Append_shape h d base more hb hm
  exact ⟨hr1, rfl, rfl⟩

/-- The claim C10: `New` and `Append` copy the variadic argument slice
into fresh storage, so overwriting an element of the caller's argument
slice `args` after the call (`writeArr` at index `i` inside the slice
window) changes neither resulting chain. -/
theorem new_append_copy_arguments (h : Heap (Constructor W R)) (d : Constructor W R)
    (args base : GoSlice) (i : Nat) (v : Constructor W R)
    (hargs : WFSlice h args) (hbase : WFSlice h base) (hi : i < args.len) :
    chainAt (writeArr (New h args).1 args.arrId (args.off + i) [v]) (New h args).2
        = chainAt (New h args).1 (New h args).2
    ∧ chainAt (writeArr (Append h d base args).1 args.arrId (args.off + i) [v])
          (Append h d base args).2
        = chainAt (Append h d base args).1 (Append h d base args).2 := by
  have hargsId : args.arrId < h.length := by
    rcases hargs with ⟨hlc, hc0 | ⟨hid, _⟩⟩
    · omega
    · exact hid
  constructor
  · obtain ⟨e1, he1, _, _, hf1⟩ := New_shape h args
    rcases hf1 with h0 | hge
    · unfold chainAt
      rw [readSlice_len_zero _ _ h0, readSlice_len_zero _ _ h0]
    · have hne : args.arrId ≠ (New h args).2.arrId := by omega
      unfold chainAt
      rw [readSlice_writeArr_ne _ _ _ _ _ hne]
  · obtain ⟨e1, he1, _, _, hf1⟩ := Append_shape h d base args hbase hargs
    rcases hf1 with h0 | hge
    · unfold chainAt
      rw [readSlice_len_zero _ _ h0, readSlice_len_zero _ _ h0]
    · have hne : args.arrId ≠ (Append h d base args).2.arrId := by omega
      unfold chainAt
      rw [readSlice_writeArr_ne _ _ _ _ _ hne]

/-- Witness heap: three backing arrays holding the logging middleware
`A`, `B` and `C`. -/
def wHeap : Heap (Constructor (List String) Unit) :=
  [[logCon ("A")], [logCon ("B")], [logCon ("C")]]

/-- Witness slice viewing the first backing array of `wHeap`. -/
def wS0 : GoSlice := ⟨0, 0, 1, 1⟩

/-- Witness slice viewing the second backing array of `wHeap`. -/
def wS1 : GoSlice := ⟨1, 0, 1, 1⟩

/-- Witness slice viewing the third backing array of `wHeap`. -/
def wS2 : GoSlice := ⟨2, 0, 1, 1⟩

theorem append_does_not_mutate_receiver_witness :
    (WFSlice wHeap wS0 ∧ WFSlice wHeap wS1 ∧ WFSlice wHeap wS2)
    ∧ ((chainAt (Append wHeap zeroCon wS0 wS1).1 wS0).ThenContext (some (logTerm ("T")))
          = (chainAt wHeap wS0).ThenContext (some (logTerm ("T")))
        ∧ chainAt (Append (Append wHeap zeroCon wS0 wS1).1 zeroCon wS0 wS2).1 wS0
            = chainAt wHeap wS0
        ∧ chainAt (Append (Append wHeap zeroCon wS0 wS1).1 zeroCon wS0 wS2).1
              (Append wHeap zeroCon wS0 wS1).2
            = chainAt (Append wHeap zeroCon wS0 wS1).1 (Append wHeap zeroCon wS0 wS1).2) :=
  ⟨⟨by decide, by decide, by decide⟩,
    append_does_not_mutate_receiver wHeap zeroCon wS0 wS1 wS2 (some (logTerm ("T")))
      (by decide) (by decide) (by decide)⟩

theorem append_extends_in_order_witness :
    (WFSlice wHeap wS0 ∧ WFSlice wHeap wS1)
    ∧ ((chainAt (Append wHeap zeroCon wS0 wS1).1 (Append wHeap zeroCon wS0 wS1).2).constructors
          = readSlice wHeap wS0 ++ readSlice wHeap wS1
        ∧ runHttp ((chainAt scenExt.1 scenBase.2).Then (some (logTerm ("term")))) [] ()
            = some (["A", "term"])
        ∧ runHttp ((chainAt scenExt.1 scenExt.2).Then (some (logTerm ("term")))) [] ()
            = some (["A", "B", "term"])) :=
  ⟨⟨by decide, by decide⟩,
    append_extends_in_order wHeap zeroCon wS0 wS1 (by decide) (by decide)⟩

theorem new_append_copy_arguments_witness :
    (WFSlice wHeap wS0 ∧ WFSlice wHeap wS1 ∧ 0 < wS0.len)
    ∧ (chainAt (writeArr (New wHeap wS0).1 wS0.arrId (wS0.off + 0) [logCon ("X")])
            (New wHeap wS0).2
          = chainAt (New wHeap wS0).1 (New wHeap wS0).2
        ∧ chainAt (writeArr (Append wHeap zeroCon wS1 wS0).1 wS0.arrId (wS0.off + 0)
              [logCon ("X")]) (Append wHeap zeroCon wS1 wS0).2
            = chainAt (Append wHeap zeroCon wS1 wS0).1 (Append wHeap zeroCon wS1 wS0).2) :=
  ⟨⟨by decide, by decide, by decide⟩,
    new_append_copy_arguments wHeap zeroCon wS0 wS1 0 (logCon ("X"))
      (by decide) (by decide) (by decide)⟩

end Alice
